import Mathlib

/-!
Verification of the ModuWeb-EasyPyEnv client core: a shallow embedding of the
task-progress monitor (`monitorTaskProgress` in `src/js/modules/ui.js`), the
list renderer / selection store (`renderDependencyList`, `selectedDependencies`
in `ui.js`), the filter and search logic (`filterDependencies`,
`searchDependencies` in `src/js/modules/dependency-manager.js`), the
incremental-sync completion handlers (`dependency-manager.js`,
`refreshSingleDependency` in `core.js`), and the progress fetcher
(`getTaskProgress` in `src/js/modules/api.js`), together with theorems about
their behaviour.

Strings are embedded as `List Char`; JavaScript `Set<string>` as a duplicate
free `List` of names; machine numbers as `Nat`/`Int` (the quantities involved
are small and overflow free); `async` control flow as a step function over an
explicit state, driven by a list of events.
-/

namespace ModuWeb

/-- Package names / keys, JS strings embedded as lists of characters. -/
abbrev Name := List Char

/-- ASCII lower-casing of one character (JS `String.prototype.toLowerCase`,
restricted to the ASCII range used by package names). -/
def charToLower (c : Char) : Char :=
  if 'A' ≤ c ∧ c ≤ 'Z' then Char.ofNat (c.toNat + 32) else c

/-- Lower-case a whole name. -/
def toLowerName (s : Name) : Name := s.map charToLower

/-- JS `String.prototype.startsWith`: `leadsList q s` iff `q` is an initial
segment of `s`. -/
def leadsList : Name → Name → Bool
  | [], _ => true
  | _ :: _, [] => false
  | a :: as, b :: bs => a == b && leadsList as bs

/-- JS `String.prototype.includes`: `q` occurs contiguously inside `s`. -/
def hasSub (q : Name) : Name → Bool
  | [] => leadsList q []
  | c :: rest => leadsList q (c :: rest) || hasSub q rest

/-- JS `String.prototype.indexOf`: index of the first occurrence of `q` in
`s` (only used under a `hasSub` guard, mirroring the source's
`includes`-then-`indexOf` pattern). -/
def subIdx (q : Name) : Name → Nat
  | [] => 0
  | c :: rest => if leadsList q (c :: rest) then 0 else subIdx q rest + 1

/-- Three-way code-point comparison of names, the embedding of
`String.prototype.localeCompare` as used by the canonical sort (for package
names, ASCII code-point order). Returns `-1`, `0` or `1`. -/
def lexCmp : Name → Name → Int
  | [], [] => 0
  | [], _ :: _ => -1
  | _ :: _, [] => 1
  | a :: as, b :: bs =>
    if a.toNat < b.toNat then -1
    else if b.toNat < a.toNat then 1
    else lexCmp as bs

/-- One manageable package record (the entry objects served by
`GET /api/dependencies` and rendered by `renderDependencyList`). -/
structure Entry where
  name : Name
  version : String
  latestVersion : Option String
  isLatest : Bool
  isSystem : Bool
  isAppRequired : Bool
  isCore : Bool
  isAIModel : Bool
  description : Option String
deriving DecidableEq

/-! ## Task-progress monitor (`monitorTaskProgress`, ui.js lines 299-453) -/

/-- The body served by `GET /api/task-progress/{taskId}` (or the synthetic
`{ error }` object built by `getTaskProgress` on failure).  `progress` is
`Option` because the source reads it as `progress.progress || 0`.  `errors`
carries the structured per-package error payload (display only). -/
structure ProgressData where
  error : Option String
  progress : Option Nat
  status : Option String
  message : Option String
  errors : List String
deriving DecidableEq

/-- Outcome of one `await getProgressFunc(taskId)` call: the promise rejects
(`throwErr`, the `catch` branch at ui.js line 328) or resolves with a value
that may be empty/undefined (`resolved none`, the `if (!progress)` branch at
line 342) or a progress object. -/
inductive FetchOutcome where
  | throwErr : FetchOutcome
  | resolved : Option ProgressData → FetchOutcome
deriving DecidableEq

/-- The mutable state closed over by one `monitorTaskProgress` invocation.
`displayedPercent` records the argument of the `updateProgressBar` call at
ui.js line 365 (the per-tick normalized display value); `completeCalls`
counts invocations of the user callback `onComplete` (scheduled once inside
`cleanupAndComplete`; the one-second display delay before it runs is dropped,
the invocation count is preserved).  `intervalActive` / `safetyActive` model
whether `intervalId` / `safetyTimeout` are still pending. -/
structure MonitorState where
  lastProgressPercent : Nat
  stagnantCount : Nat
  consecutiveErrorCount : Nat
  taskCompleted : Bool
  intervalActive : Bool
  safetyActive : Bool
  displayedPercent : Nat
  completeCalls : Nat
deriving DecidableEq

/-- State at monitor creation (ui.js lines 301-304; the progress bar was just
reset to 0%). -/
def initMonitorState : MonitorState :=
  { lastProgressPercent := 0
    stagnantCount := 0
    consecutiveErrorCount := 0
    taskCompleted := false
    intervalActive := true
    safetyActive := true
    displayedPercent := 0
    completeCalls := 0 }

/-- `cleanupAndComplete` (ui.js lines 403-452): guarded by `taskCompleted`,
cancels both timers and schedules the single `onComplete` invocation (it also
repaints the bar at 100% and shows a notification, display-only effects not
tracked here). -/
def cleanupAndComplete (s : MonitorState) : MonitorState :=
  if s.taskCompleted then s
  else
    { s with
      taskCompleted := true
      intervalActive := false
      safetyActive := false
      completeCalls := s.completeCalls + 1 }

/-- The progress-handling part of one poll tick (ui.js lines 356-393),
reached with a truthy progress object carrying no `error` field: normalize
the displayed value so it never regresses, update the bar, run the
stagnation checks and the completion check. -/
def progressPhase (s : MonitorState) (p : ProgressData) : MonitorState :=
  let reported := p.progress.getD 0
  let displayPercent :=
    if reported < s.lastProgressPercent then s.lastProgressPercent else reported
  let s1 :=
    if reported < s.lastProgressPercent then s
    else { s with lastProgressPercent := reported }
  let s2 := { s1 with displayedPercent := displayPercent }
  let isCompleted : Prop := p.status = some "completed" ∨ 100 ≤ displayPercent
  if displayPercent = s2.lastProgressPercent then
    let s3 := { s2 with stagnantCount := s2.stagnantCount + 1 }
    if displayPercent = 100 ∧ 2 < s3.stagnantCount then
      cleanupAndComplete s3
    else
      -- (the `stagnantCount > 10` advisory only changes the displayed message)
      if isCompleted then cleanupAndComplete s3 else s3
  else
    let s3 := { s2 with stagnantCount := 0 }
    if isCompleted then cleanupAndComplete s3 else s3

/-- One execution of the `setInterval` callback (ui.js lines 315-400) with
fetch outcome `o`. -/
def monitorTick (s : MonitorState) (o : FetchOutcome) : MonitorState :=
  if s.taskCompleted then { s with intervalActive := false }
  else
    match o with
    | .throwErr =>
      let s1 := { s with consecutiveErrorCount := s.consecutiveErrorCount + 1 }
      if 3 ≤ s1.consecutiveErrorCount then cleanupAndComplete s1 else s1
    | .resolved v =>
      -- the fetch resolved, so the source resets the error counter first
      let s1 := { s with consecutiveErrorCount := 0 }
      match v with
      | none =>
        let s2 := { s1 with consecutiveErrorCount := s1.consecutiveErrorCount + 1 }
        if 3 ≤ s2.consecutiveErrorCount then cleanupAndComplete s2 else s2
      | some p =>
        if p.error.isSome then cleanupAndComplete s1
        else progressPhase s1 p

/-- The safety-timeout callback (ui.js lines 307-312); it can only run while
the timeout is still pending, and is one-shot. -/
def monitorSafety (s : MonitorState) : MonitorState :=
  if s.safetyActive then
    let s1 := { s with safetyActive := false }
    if s1.taskCompleted then s1 else cleanupAndComplete s1
  else s

/-- An event on the cooperative loop: one interval tick (with its fetch
outcome) or the safety timeout firing. -/
inductive MEvent where
  | tick : FetchOutcome → MEvent
  | safety : MEvent
deriving DecidableEq

/-- Dispatch one event; interval ticks only happen while the interval is
pending. -/
def monitorStep (s : MonitorState) : MEvent → MonitorState
  | .tick o => if s.intervalActive then monitorTick s o else s
  | .safety => monitorSafety s

/-- Run a monitor instance over a whole event trace. -/
def runMonitor (es : List MEvent) : MonitorState :=
  es.foldl monitorStep initMonitorState

/-- A tick whose fetch resolves with a plain running-status report of `r`
percent (no error field). -/
def reportTick (r : Nat) : MEvent :=
  .tick (.resolved (some
    { error := none, progress := some r, status := none, message := none, errors := [] }))

/-- A tick whose fetch resolves with an empty/undefined body. -/
def emptyTick : MEvent := .tick (.resolved none)

/-- Run from `s` over a list of plain progress reports, collecting the
displayed value after each tick. -/
def runReports : MonitorState → List Nat → List Nat
  | _, [] => []
  | s, r :: rs =>
    let s' := monitorStep s (reportTick r)
    s'.displayedPercent :: runReports s' rs

/-- Running maximum of a report sequence starting from accumulator `a`. -/
def maxScan (a : Nat) : List Nat → List Nat
  | [] => []
  | r :: rs => max a r :: maxScan (max a r) rs

/-! ## List store (`renderDependencyList` / `selectedDependencies`, ui.js) -/

/-- The three-way comparator passed to `dependencies.sort` at ui.js lines
30-45: system entries first, then app-required, then core, then AI-model,
names deciding the rest. -/
def depCmp (a b : Entry) : Int :=
  if a.isSystem && !b.isSystem then -1
  else if !a.isSystem && b.isSystem then 1
  else if a.isAppRequired && !b.isAppRequired then -1
  else if !a.isAppRequired && b.isAppRequired then 1
  else if a.isCore && !b.isCore then -1
  else if !a.isCore && b.isCore then 1
  else if a.isAIModel && !b.isAIModel then -1
  else if !a.isAIModel && b.isAIModel then 1
  else lexCmp a.name b.name

/-- `a` may be placed no later than `b` under the comparator (comparator
value at most 0).  `Array.prototype.sort` with a consistent comparator
produces the unique stable order sorted by this relation, which is what
`List.insertionSort` computes. -/
def depLe (a b : Entry) : Prop := depCmp a b ≤ 0

instance : DecidableRel depLe := fun _ _ => inferInstanceAs (Decidable (_ ≤ _))

/-- The in-place sort performed by `renderDependencyList` (ui.js line 30). -/
def sortDependencies (l : List Entry) : List Entry := l.insertionSort depLe

/-- The module-level mutable state of ui.js: the canonical entry list
(`allDependencies`, line 3) and the selection set (`selectedDependencies`,
line 4, a JS `Set` embedded as a duplicate-free list of names). -/
structure ListState where
  allDependencies : List Entry
  selectedDependencies : List Name
deriving DecidableEq

/-- JS `Set.prototype.delete` on the selection set. -/
def selDelete (sel : List Name) (n : Name) : List Name :=
  sel.filter (fun m => decide (m ≠ n))

/-- JS `Set.prototype.add` on the selection set. -/
def selAdd (sel : List Name) (n : Name) : List Name :=
  if n ∈ sel then sel else sel ++ [n]

/-- State effect of `renderDependencyList(dependencies)` (ui.js lines
11-158): assign `allDependencies`, sort it by the fixed precedence and
rebuild the DOM.  The selection set is read (to restore checkbox state) but
never written; the DOM rebuilding itself is not modelled.  (The
`length === 0` early return only skips the sort of an empty list, whose
sorted form is empty anyway.) -/
def renderDependencyList (st : ListState) (dependencies : List Entry) : ListState :=
  { allDependencies := sortDependencies dependencies
    selectedDependencies := st.selectedDependencies }

/-! ## Filter (`filterDependencies`, dependency-manager.js lines 321-395) -/

/-- The filter enum from the `dependency-filter` dropdown.  The source
switches on a string; the `default` case behaves exactly like `'all'`. -/
inductive FilterType where
  | all | sys | app | ai | core | other
deriving DecidableEq

/-- The `switch (filterType)` visibility decision (lines 337-370), reading
the CSS classes `system` / `app-required` / `ai-model` / `core` that
`renderDependencyList` assigned from the entry flags (ui.js lines 62-73). -/
def shouldShowEntry (ft : FilterType) (e : Entry) : Bool :=
  match ft with
  | .sys => e.isSystem
  | .app => e.isAppRequired
  | .ai => e.isAIModel
  | .core => e.isCore
  | .other => !e.isSystem && !e.isAppRequired && !e.isCore && !e.isAIModel
  | .all => true

/-- Result of `filterDependencies`: which entries got `display:none`, and the
selection set after the `dependency-selection-changed` events it dispatched
for hidden selected items were handled by the ui.js listener (lines 932-939),
which deletes the key from `selectedDependencies`. -/
structure FilterResult where
  hiddenNames : List Name
  selectedDependencies : List Name
deriving DecidableEq

/-- `filterDependencies(filterType)` (dependency-manager.js lines 321-395):
every rendered item is shown or hidden purely from its flag classes; a hidden
item that was selected (`selected` class, kept in sync with the selection
set) is deselected via the `dependency-selection-changed` event. -/
def filterDependencies (ft : FilterType) (st : ListState) : FilterResult :=
  { hiddenNames :=
      (st.allDependencies.filter (fun e => !shouldShowEntry ft e)).map Entry.name
    selectedDependencies :=
      st.allDependencies.foldl
        (fun sel e =>
          if shouldShowEntry ft e then sel
          else if e.name ∈ sel then selDelete sel e.name else sel)
        st.selectedDependencies }

/-! ## Search ranking (`searchDependencies`, dependency-manager.js 624-781) -/

/-- The per-item score (lines 669-710).  `key` is the item's `dataset.name`;
the code lower-cases both it and the query.  The score is an `Int`: the
substring branch can go negative for long keys. -/
def scoreOf (query : Name) (e : Entry) : Int :=
  let packageName := toLowerName e.name
  let lowerQuery := toLowerName query
  if packageName = [] then 0
  else if leadsList lowerQuery packageName then
    (2000 - (packageName.length : Int)) +
      (if (packageName.length : Int) - (lowerQuery.length : Int) < 3 then 500 else 0)
  else if hasSub lowerQuery packageName then
    1000 - (subIdx lowerQuery packageName : Int) - (packageName.length : Int)
  else 0

/-- Item `a` may be placed no later than `b` in the search result: the
source sorts by `(a, b) => b.score - a.score`, i.e. descending score, with
the engine's stable sort preserving input order on ties. -/
def scoreGe (query : Name) (a b : Entry) : Prop := scoreOf query b ≤ scoreOf query a

instance (query : Name) : DecidableRel (scoreGe query) :=
  fun _ _ => inferInstanceAs (Decidable (_ ≤ _))

/-- `searchDependencies(query)` reordering of the rendered items (lines
712-777): the stable descending-score sort.  Non-matching (score 0) items are
kept; the DOM highlighting is not modelled. -/
def searchRank (query : Name) (items : List Entry) : List Entry :=
  items.insertionSort (scoreGe query)

/-! ## Incremental sync after a mutation (dependency-manager.js, core.js) -/

/-- A store-level data effect performed by a completion handler. -/
inductive SyncAction where
  | upsertEntry : Entry → SyncAction
  | fullReload : Bool → SyncAction
deriving DecidableEq

/-- Outcome of the targeted single-entry re-fetch
(`getSingleDependency`): the request threw, returned an empty body (package
not installed), or returned the fresh entry. -/
inductive FetchSingleOutcome where
  | fetchThrew : FetchSingleOutcome
  | fetchedNone : FetchSingleOutcome
  | fetchedEntry : Entry → FetchSingleOutcome
deriving DecidableEq

/-- `refreshSingleDependency(packageName, force)` (core.js lines 88-135):
on a fresh entry it upserts the rendered item (`updateDependencyItem`) and
returns it; on an empty body it returns `null`; its own `catch` also returns
`null`, so it never throws to the caller.  Returns (returned value,
performed store actions). -/
def refreshSingleDependency : FetchSingleOutcome → Option Entry × List SyncAction
  | .fetchThrew => (none, [])
  | .fetchedNone => (none, [])
  | .fetchedEntry e => (some e, [.upsertEntry e])

/-- Store actions of the version-switch completion callback
(dependency-manager.js lines 62-82): targeted re-fetch; if it yields no
entry (including the error case, since `refreshSingleDependency` returns
`null` on error) fall back to `refreshDependencies(false)`. -/
def versionSwitchOnComplete (o : FetchSingleOutcome) : List SyncAction :=
  let r := refreshSingleDependency o
  match r.1 with
  | some _ => r.2
  | none => r.2 ++ [.fullReload false]

/-- Store actions of the update-button completion callback
(dependency-manager.js lines 153-157): `await refreshSingleDependency(name,
true)` with the returned value ignored and no fallback of any kind. -/
def updateOnComplete (o : FetchSingleOutcome) : List SyncAction :=
  (refreshSingleDependency o).2

/-- Store actions of the install completion callback: `handleTaskWithProgress`
(dependency-manager.js lines 472-526, `refreshList` defaulted to `true`)
passes `monitorTaskProgress` a callback that runs `refreshDependencies()`
(`useCache = false`), an unconditional full reload.  (The
`refreshSingleDependency` call in `handlePackageInstall` runs right after the
task is submitted, not on completion.) -/
def installOnComplete : List SyncAction := [.fullReload false]

/-! ## Progress fetcher (`getTaskProgress`, api.js lines 175-188) -/

/-- Outcome of the underlying `fetch` + `response.json()` for one
`GET /api/task-progress/{taskId}` request.  Per the endpoint contract a
successfully parsed body is a progress object. -/
inductive HttpOutcome where
  | netErr : String → HttpOutcome
  | httpErr : Nat → HttpOutcome
  | okParseErr : String → HttpOutcome
  | okJson : ProgressData → HttpOutcome
deriving DecidableEq

/-- Whether the request failed (rejected fetch, non-ok status, or body that
failed to parse). -/
def isFailureOutcome : HttpOutcome → Bool
  | .netErr _ => true
  | .httpErr _ => true
  | .okParseErr _ => true
  | .okJson _ => false

/-- A progress object with only an `error` field, as built by the `catch`
branch of `getTaskProgress` from `error.message`. -/
def errOnly (msg : String) : ProgressData :=
  { error := some msg, progress := none, status := none, message := none, errors := [] }

/-- `getTaskProgress(taskId)` (api.js lines 175-188): a non-ok response is
thrown inside the `try`, and every thrown error is caught and returned as
`{ error: error.message }` (the message built for status `c` is
`Error('...: ' + c).message`, a nonempty string).  The function is total: it
never rejects and never resolves with `undefined`. -/
def getTaskProgressFn : HttpOutcome → ProgressData
  | .netErr msg => errOnly msg
  | .httpErr c => errOnly (toString c)
  | .okParseErr msg => errOnly msg
  | .okJson p => p

/-- The monitor event produced when `monitorTaskProgress` is composed with
`getTaskProgress` (every call site passes it as `getProgressFunc`): the
fetch always resolves with a progress object. -/
def composedTick (h : HttpOutcome) : MEvent :=
  .tick (.resolved (some (getTaskProgressFn h)))

/-!  ## Theorems -/

theorem progressPhase_eq (s : MonitorState) (p : ProgressData) :
    progressPhase s p =
      (if (max s.lastProgressPercent (p.progress.getD 0) = 100 ∧ 2 < s.stagnantCount + 1) ∨
          p.status = some "completed" ∨ 100 ≤ max s.lastProgressPercent (p.progress.getD 0)
       then cleanupAndComplete
         { s with
             lastProgressPercent := max s.lastProgressPercent (p.progress.getD 0)
             displayedPercent := max s.lastProgressPercent (p.progress.getD 0)
             stagnantCount := s.stagnantCount + 1 }
       else
         { s with
             lastProgressPercent := max s.lastProgressPercent (p.progress.getD 0)
             displayedPercent := max s.lastProgressPercent (p.progress.getD 0)
             stagnantCount := s.stagnantCount + 1 }) := by
  unfold progressPhase
  by_cases hlt : p.progress.getD 0 < s.lastProgressPercent
  · have hmax : max s.lastProgressPercent (p.progress.getD 0) = s.lastProgressPercent :=
      max_eq_left (Nat.le_of_lt hlt)
    simp only [hlt, if_true, hmax]
    by_cases h1 : s.lastProgressPercent = 100 ∧ 2 < s.stagnantCount + 1
    · simp [h1]
    · by_cases h2 : p.status = some "completed" ∨ 100 ≤ s.lastProgressPercent
      · simp [h1, h2]
      · simp [h1, h2]
  · have hmax : max s.lastProgressPercent (p.progress.getD 0) = p.progress.getD 0 :=
      max_eq_right (Nat.le_of_not_lt hlt)
    simp only [hlt, if_false, hmax]
    by_cases h1 : p.progress.getD 0 = 100 ∧ 2 < s.stagnantCount + 1
    · simp [h1]
    · by_cases h2 : p.status = some "completed" ∨ 100 ≤ p.progress.getD 0
      · simp [h1, h2]
      · simp [h1, h2]


def MonInv (s : MonitorState) : Prop :=
  (s.taskCompleted = true →
    s.completeCalls = 1 ∧ s.intervalActive = false ∧ s.safetyActive = false) ∧
  (s.taskCompleted = false → s.completeCalls = 0)

theorem monInv_init : MonInv initMonitorState := by
  constructor <;> simp [initMonitorState]

theorem cleanup_inv (s : MonitorState) (hc : s.taskCompleted = false)
    (h0 : s.completeCalls = 0) : MonInv (cleanupAndComplete s) := by
  unfold cleanupAndComplete MonInv
  simp [hc, h0]

theorem monInv_step (s : MonitorState) (ev : MEvent) (h : MonInv s) :
    MonInv (monitorStep s ev) := by
  obtain ⟨h1, h2⟩ := h
  cases ev with
  | safety =>
    unfold monitorStep monitorSafety
    by_cases hs : s.safetyActive
    · by_cases hc : s.taskCompleted
      · simp_all [MonInv]
      · rw [Bool.not_eq_true] at hc
        simp only [hs, if_true, hc, Bool.false_eq_true, if_false]
        exact cleanup_inv _ (by simp_all) (by simp_all)
    · simpa [hs] using ⟨h1, h2⟩
  | tick o =>
    unfold monitorStep
    by_cases hi : s.intervalActive
    · simp only [hi, if_true]
      by_cases hc : s.taskCompleted
      · simp_all [monitorTick, MonInv]
      · rw [Bool.not_eq_true] at hc
        have h0 := h2 hc
        cases o with
        | throwErr =>
          simp only [monitorTick, hc, Bool.false_eq_true, if_false]
          split
          · exact cleanup_inv _ (by simp_all) (by simp_all)
          · constructor <;> simp [hc, h0]
        | resolved v =>
          cases v with
          | none =>
            simp only [monitorTick, hc, Bool.false_eq_true, if_false]
            split
            · exact cleanup_inv _ (by simp_all) (by simp_all)
            · constructor <;> simp [hc, h0]
          | some p =>
            simp only [monitorTick, hc, Bool.false_eq_true, if_false]
            split
            · exact cleanup_inv _ (by simp_all) (by simp_all)
            · rw [progressPhase_eq]
              split
              · exact cleanup_inv _ (by simp_all) (by simp_all)
              · constructor <;> simp [hc, h0]
    · simpa [hi] using ⟨h1, h2⟩

theorem step_completed_mono (s : MonitorState) (ev : MEvent)
    (h : s.taskCompleted = true) : (monitorStep s ev).taskCompleted = true := by
  cases ev with
  | safety =>
    unfold monitorStep monitorSafety
    by_cases hs : s.safetyActive <;> simp_all [cleanupAndComplete]
  | tick o =>
    unfold monitorStep monitorTick
    by_cases hi : s.intervalActive <;> simp_all

theorem monInv_foldl (es : List MEvent) :
    ∀ s : MonitorState, MonInv s → MonInv (es.foldl monitorStep s) := by
  induction es with
  | nil => intro s h; exact h
  | cons e es ih => intro s h; exact ih _ (monInv_step s e h)

theorem completed_foldl (es : List MEvent) :
    ∀ s : MonitorState, s.taskCompleted = true →
      (es.foldl monitorStep s).taskCompleted = true := by
  induction es with
  | nil => intro s h; exact h
  | cons e es ih => intro s h; exact ih _ (step_completed_mono s e h)

/-- C1: for every monitor instance and every event trace (poll ticks with
arbitrary fetch outcomes interleaved with the safety timeout), once any
terminal path has fired (`taskCompleted` set after trace `es`) the
`onComplete` callback has run exactly once and both the polling interval and
the safety timer are cancelled, and they stay that way under any further
events `es'`; moreover on every trace whatsoever the callback runs at most
once. -/
theorem monitor_completion_exactly_once (es es' : List MEvent)
    (h : (runMonitor es).taskCompleted = true) :
    (runMonitor (es ++ es')).completeCalls = 1 ∧
    (runMonitor (es ++ es')).intervalActive = false ∧
    (runMonitor (es ++ es')).safetyActive = false ∧
    ∀ l : List MEvent, (runMonitor l).completeCalls ≤ 1 := by
  have hc : (runMonitor (es ++ es')).taskCompleted = true := by
    rw [runMonitor, List.foldl_append]
    exact completed_foldl es' _ h
  obtain ⟨h1, _⟩ := monInv_foldl (es ++ es') _ monInv_init
  obtain ⟨c1, c2, c3⟩ := h1 hc
  refine ⟨c1, c2, c3, fun l => ?_⟩
  rw [runMonitor]
  obtain ⟨g1, g2⟩ := monInv_foldl l _ monInv_init
  cases hcl : (List.foldl monitorStep initMonitorState l).taskCompleted
  · have := g2 hcl
    omega
  · have := (g1 hcl).1
    omega

/-- Witness for C1: a concrete trace (safety timeout fires first, then a
stray tick and a second safety event) on which the hypothesis holds. -/
theorem monitor_completion_exactly_once_witness :
    (runMonitor [MEvent.safety]).taskCompleted = true ∧
    ((runMonitor ([MEvent.safety] ++ [reportTick 50, MEvent.safety])).completeCalls = 1 ∧
     (runMonitor ([MEvent.safety] ++ [reportTick 50, MEvent.safety])).intervalActive = false) := by
  refine ⟨by decide, ?_⟩
  obtain ⟨c1, c2, _, _⟩ :=
    monitor_completion_exactly_once [MEvent.safety] [reportTick 50, MEvent.safety] (by decide)
  exact ⟨c1, c2⟩

/-- States reachable while feeding a monitor only plain progress reports:
the displayed value and the stored cursor agree at `a`, and the monitor is
completed exactly when the display reached 100. -/
def ReportsInv (s : MonitorState) (a : Nat) : Prop :=
  s.lastProgressPercent = a ∧ s.displayedPercent = a ∧ a ≤ 100 ∧
  (a < 100 → s.taskCompleted = false ∧ s.intervalActive = true) ∧
  (a = 100 → s.taskCompleted = true)

theorem reportsInv_init : ReportsInv initMonitorState 0 := by
  refine ⟨rfl, rfl, by omega, fun _ => ⟨rfl, rfl⟩, fun h => by omega⟩

theorem reports_step (s : MonitorState) (a r : Nat) (hP : ReportsInv s a)
    (hr : r ≤ 100) :
    (monitorStep s (reportTick r)).displayedPercent = max a r ∧
    ReportsInv (monitorStep s (reportTick r)) (max a r) := by
  obtain ⟨hlast, hdisp, ha, hlt, h100⟩ := hP
  simp only [reportTick, monitorStep]
  by_cases hc : a = 100
  · -- monitor already completed; the tick is ignored (or only clears the
    -- interval flag) and the maximum is still 100
    have hmax : max a r = 100 := by subst hc; omega
    have hcompleted := h100 hc
    subst hc
    rw [hmax]
    by_cases hi : s.intervalActive
    · simp only [hi, if_true, monitorTick, hcompleted, if_true]
      exact ⟨by simp [hdisp], by simp [hlast], by simp [hdisp], by omega,
        fun h => by omega, fun _ => by simp⟩
    · simp only [hi, Bool.false_eq_true, if_false]
      exact ⟨hdisp, hlast, hdisp, by omega, fun h => by omega, fun _ => hcompleted⟩
  · -- still polling
    have hlt' := lt_of_le_of_ne ha hc
    obtain ⟨hnc, hi⟩ := hlt hlt'
    simp only [hi, if_true, monitorTick, hnc, Bool.false_eq_true, if_false,
      Option.isSome_none, progressPhase_eq, Option.getD_some, hlast]
    have hstat : ¬((none : Option String) = some "completed") := by simp
    by_cases hr100 : max a r = 100
    · -- completes on this tick
      have hcond : (max a r = 100 ∧ 2 < s.stagnantCount + 1) ∨
          ((none : Option String) = some "completed" ∨ 100 ≤ max a r) := by
        right; right; omega
      rw [if_pos hcond, hr100]
      unfold cleanupAndComplete
      simp only [hnc, Bool.false_eq_true, if_false]
      exact ⟨by simp, by simp, by simp, by omega, fun h => by omega, fun _ => rfl⟩
    · have hcond : ¬((max a r = 100 ∧ 2 < s.stagnantCount + 1) ∨
          ((none : Option String) = some "completed" ∨ 100 ≤ max a r)) := by
        push_neg
        exact ⟨fun h => (hr100 h).elim, hstat, lt_of_le_of_ne (max_le ha hr) hr100⟩
      rw [if_neg hcond]
      have hmle : max a r ≤ 100 := max_le ha hr
      have hmne : max a r < 100 := lt_of_le_of_ne hmle hr100
      exact ⟨by simp, by simp, by simp, hmle, fun _ => by simp [hnc, hi],
        fun h => (hr100 h).elim⟩

theorem runReports_eq (rs : List Nat) :
    ∀ (s : MonitorState) (a : Nat), ReportsInv s a → (∀ r ∈ rs, r ≤ 100) →
      runReports s rs = maxScan a rs := by
  induction rs with
  | nil => intro s a _ _; rfl
  | cons r rs ih =>
    intro s a hP hr
    obtain ⟨hd, hP'⟩ := reports_step s a r hP (hr r (by simp))
    simp only [runReports, maxScan, hd]
    exact congrArg _ (ih _ _ hP' (fun x hx => hr x (by simp [hx])))

theorem maxScan_chain (rs : List Nat) :
    ∀ a : Nat, List.Chain' (· ≤ ·) (maxScan a rs) ∧
      (∀ x ∈ (maxScan a rs).head?, a ≤ x) := by
  induction rs with
  | nil => intro a; exact ⟨List.chain'_nil, by simp [maxScan]⟩
  | cons r rs ih =>
    intro a
    obtain ⟨hc, hh⟩ := ih (max a r)
    refine ⟨?_, ?_⟩
    · simp only [maxScan]
      exact List.Chain'.cons' hc hh
    · intro x hx
      simp only [maxScan, List.head?_cons, Option.mem_def, Option.some.injEq] at hx
      subst hx
      exact le_max_left a r

/-- C2: for every sequence of protocol-valid reported progress values
(integers 0-100 per the task contract), the displayed progress after each
tick is the running maximum of the previously displayed value and the
current report, hence monotonically non-decreasing even when raw reports
fluctuate downward. -/
theorem displayed_progress_is_max_projection (rs : List Nat)
    (h : ∀ r ∈ rs, r ≤ 100) :
    runReports initMonitorState rs = maxScan 0 rs ∧
    List.Chain' (· ≤ ·) (maxScan 0 rs) := by
  exact ⟨runReports_eq rs _ 0 reportsInv_init h, (maxScan_chain rs 0).1⟩

/-- Witness for C2: the spec's own example, reports 10,30,20,100 display as
10,30,30,100. -/
theorem displayed_progress_is_max_projection_witness :
    (∀ r ∈ [10, 30, 20, 100], r ≤ 100) ∧
    runReports initMonitorState [10, 30, 20, 100] = maxScan 0 [10, 30, 20, 100] ∧
    maxScan 0 [10, 30, 20, 100] = [10, 30, 30, 100] := by
  refine ⟨by decide, (displayed_progress_is_max_projection [10, 30, 20, 100] (by decide)).1,
    by decide⟩

/-- C3 (code bug): on consecutive ticks reporting 10 then 30 the displayed
progress changes from 10 to 30, yet `stagnantCount` becomes 2 instead of
being reset to 0.  The comparison `displayPercent === lastProgressPercent`
(ui.js line 371) runs after `lastProgressPercent` was already updated to
`displayPercent` (lines 358-362), so it holds on every valid tick and the
reset branch (line 387, commented "progress changed, reset the stagnation
count") is unreachable. -/
theorem stagnant_increments_despite_progress_change :
    (runMonitor [reportTick 10]).displayedPercent = 10 ∧
    (runMonitor [reportTick 10]).stagnantCount = 1 ∧
    (runMonitor [reportTick 10, reportTick 30]).displayedPercent = 30 ∧
    (runMonitor [reportTick 10, reportTick 30]).stagnantCount = 2 := by decide

/-- C4 (code bug): three consecutive thrown fetches do terminate the monitor
on the third tick, not earlier and not later; but three (indeed any number
of) consecutive empty/undefined responses leave it polling forever with
`consecutiveErrorCount` stuck at 1, because a resolved fetch resets the
counter (ui.js line 327) before the `if (!progress)` branch increments it
(line 343), so the `>= 3` check inside that branch (line 345) can never
fire.  The state after one empty tick is a fixed point of further empty
ticks. -/
theorem empty_responses_never_reach_error_threshold :
    (runMonitor [MEvent.tick .throwErr, MEvent.tick .throwErr]).taskCompleted = false ∧
    (runMonitor [MEvent.tick .throwErr, MEvent.tick .throwErr,
      MEvent.tick .throwErr]).taskCompleted = true ∧
    (runMonitor [MEvent.tick .throwErr, MEvent.tick .throwErr,
      MEvent.tick .throwErr]).completeCalls = 1 ∧
    (runMonitor [emptyTick, emptyTick, emptyTick]).taskCompleted = false ∧
    (runMonitor [emptyTick, emptyTick, emptyTick]).consecutiveErrorCount = 1 ∧
    (runMonitor [emptyTick, emptyTick, emptyTick]).completeCalls = 0 ∧
    monitorStep (runMonitor [emptyTick]) emptyTick = runMonitor [emptyTick] ∧
    (runMonitor (List.replicate 10 emptyTick)).taskCompleted = false := by decide

/-- A sample non-protected entry used by concrete witnesses. -/
def numpyEntry : Entry :=
  { name := "numpy".data, version := "1.26.0", latestVersion := none, isLatest := true,
    isSystem := false, isAppRequired := false, isCore := true, isAIModel := false,
    description := none }

/-- C5 counterexample: with `"torch"` selected, a full replacement by a list
that does not contain `"torch"` leaves `"torch"` in the selection set even
though it is not a key of the new canonical list — `renderDependencyList`
never writes `selectedDependencies`, so no pruning happens. -/
theorem replace_keeps_stale_selection_cx :
    (renderDependencyList
        { allDependencies := [], selectedDependencies := ["torch".data] }
        [numpyEntry]).selectedDependencies = ["torch".data] ∧
    "torch".data ∉
      (renderDependencyList
        { allDependencies := [], selectedDependencies := ["torch".data] }
        [numpyEntry]).allDependencies.map Entry.name := by decide

/-- C5 amended: a full list replacement leaves the selection set exactly as
it was (keys absent from the new list are not pruned; the subset invariant
can be violated until some later selection-changing action), while the
canonical list becomes the precedence-sorted new list. -/
theorem replaceAll_preserves_selection (st : ListState) (deps : List Entry) :
    (renderDependencyList st deps).selectedDependencies = st.selectedDependencies ∧
    (renderDependencyList st deps).allDependencies = sortDependencies deps :=
  ⟨rfl, rfl⟩

theorem getTaskProgress_error_on_failure (h : HttpOutcome)
    (hf : isFailureOutcome h = true) : (getTaskProgressFn h).error.isSome = true := by
  cases h <;> simp_all [getTaskProgressFn, errOnly, isFailureOutcome]

theorem composed_failure_fails_fast (st : MonitorState) (h : HttpOutcome)
    (hi : st.intervalActive = true) (hc : st.taskCompleted = false)
    (hf : isFailureOutcome h = true) :
    monitorStep st (composedTick h) =
      cleanupAndComplete { st with consecutiveErrorCount := 0 } := by
  have herr := getTaskProgress_error_on_failure h hf
  simp only [composedTick, monitorStep, hi, if_true, monitorTick, hc,
    Bool.false_eq_true, if_false, herr, if_true]

theorem composed_error_count_zero (hs : List HttpOutcome) :
    ∀ st : MonitorState, st.consecutiveErrorCount = 0 →
      ((hs.map composedTick).foldl monitorStep st).consecutiveErrorCount = 0 := by
  induction hs with
  | nil => intro st h0; exact h0
  | cons h hs ih =>
    intro st h0
    refine ih _ ?_
    by_cases hi : st.intervalActive
    · simp only [composedTick, monitorStep, hi, if_true, monitorTick]
      by_cases hc : st.taskCompleted
      · simp [hc, h0]
      · rw [Bool.not_eq_true] at hc
        simp only [hc, Bool.false_eq_true, if_false]
        split
        · unfold cleanupAndComplete
          split <;> rfl
        · rw [progressPhase_eq]
          split
          · unfold cleanupAndComplete
            split <;> rfl
          · rfl
    · simp only [composedTick, monitorStep, hi, Bool.false_eq_true, if_false]
      exact h0


/-- C10: `getTaskProgress` is total by construction (it never throws, and
always resolves with a progress object — the synthetic `{ error }` object on
any transport/HTTP/parse failure).  Composed with the monitor: a failing
request takes the explicit-error terminal path on that same tick, and over
any outcome sequence the consecutive-error counter stays 0, so the
three-strike branches for thrown fetches and empty responses are never
exercised. -/
theorem getTaskProgress_total_fail_fast :
    (∀ h : HttpOutcome, isFailureOutcome h = true →
       (getTaskProgressFn h).error.isSome = true) ∧
    (∀ (st : MonitorState) (h : HttpOutcome),
       st.intervalActive = true → st.taskCompleted = false →
       isFailureOutcome h = true →
       monitorStep st (composedTick h) =
         cleanupAndComplete { st with consecutiveErrorCount := 0 }) ∧
    (∀ hs : List HttpOutcome,
       ((hs.map composedTick).foldl monitorStep
           initMonitorState).consecutiveErrorCount = 0) :=
  ⟨getTaskProgress_error_on_failure,
   composed_failure_fails_fast,
   fun hs => composed_error_count_zero hs initMonitorState rfl⟩

/-- Witness for C10 at a concrete failed request. -/
theorem getTaskProgress_total_fail_fast_witness :
    (getTaskProgressFn (HttpOutcome.netErr "net down")).error.isSome = true ∧
    monitorStep initMonitorState (composedTick (HttpOutcome.netErr "net down")) =
      cleanupAndComplete { initMonitorState with consecutiveErrorCount := 0 } ∧
    (([HttpOutcome.netErr "net down", HttpOutcome.httpErr 500].map
        composedTick).foldl monitorStep initMonitorState).consecutiveErrorCount = 0 := by
  obtain ⟨a, b, c⟩ := getTaskProgress_total_fail_fast
  exact ⟨a _ (by decide), b initMonitorState _ rfl rfl (by decide), c _⟩

theorem charToNat_inj (a b : Char) (h : a.toNat = b.toNat) : a = b :=
  Char.eq_of_val_eq (UInt32.ext h)

theorem lexCmp_self : ∀ x : Name, lexCmp x x = 0
  | [] => rfl
  | a :: as => by simp [lexCmp, lexCmp_self as]

theorem lexCmp_swap : ∀ x y : Name, lexCmp y x = -lexCmp x y
  | [], [] => rfl
  | [], _ :: _ => rfl
  | _ :: _, [] => rfl
  | a :: as, b :: bs => by
    simp only [lexCmp]
    rcases Nat.lt_trichotomy a.toNat b.toNat with h | h | h
    · rw [if_neg (by omega), if_pos h, if_pos h]
      norm_num
    · rw [if_neg (by omega), if_neg (by omega), if_neg (by omega), if_neg (by omega)]
      exact lexCmp_swap as bs
    · rw [if_pos h, if_neg (by omega), if_pos h]

theorem lexCmp_eq_zero : ∀ x y : Name, lexCmp x y = 0 → x = y
  | [], [] => fun _ => rfl
  | [], _ :: _ => by intro h; simp [lexCmp] at h
  | _ :: _, [] => by intro h; simp [lexCmp] at h
  | a :: as, b :: bs => by
    intro h
    simp only [lexCmp] at h
    by_cases h1 : a.toNat < b.toNat
    · rw [if_pos h1] at h; omega
    · rw [if_neg h1] at h
      by_cases h2 : b.toNat < a.toNat
      · rw [if_pos h2] at h; omega
      · rw [if_neg h2] at h
        have hab : a = b := charToNat_inj a b (by omega)
        rw [hab, lexCmp_eq_zero as bs h]

theorem lexCmp_cons_le {a b : Char} {as bs : Name} :
    lexCmp (a :: as) (b :: bs) ≤ 0 ↔
      a.toNat < b.toNat ∨ (a.toNat = b.toNat ∧ lexCmp as bs ≤ 0) := by
  simp only [lexCmp]
  by_cases h1 : a.toNat < b.toNat
  · rw [if_pos h1]
    constructor
    · intro _; exact Or.inl h1
    · intro _; omega
  · rw [if_neg h1]
    by_cases h2 : b.toNat < a.toNat
    · rw [if_pos h2]
      constructor
      · intro h; omega
      · intro h; rcases h with h | ⟨h, _⟩ <;> omega
    · rw [if_neg h2]
      constructor
      · intro h; exact Or.inr ⟨by omega, h⟩
      · intro h; rcases h with h | ⟨_, h⟩
        · omega
        · exact h

theorem lexCmp_nil_le : ∀ z : Name, lexCmp [] z ≤ 0
  | [] => by simp [lexCmp]
  | _ :: _ => by simp [lexCmp]

theorem lexCmp_trans : ∀ x y z : Name, lexCmp x y ≤ 0 → lexCmp y z ≤ 0 →
    lexCmp x z ≤ 0
  | [], _, z, _, _ => lexCmp_nil_le z
  | _ :: _, [], _, h1, _ => by simp [lexCmp] at h1
  | _ :: _, _ :: _, [], _, h2 => by simp [lexCmp] at h2
  | a :: as, b :: bs, c :: cs, h1, h2 => by
    rw [lexCmp_cons_le] at h1 h2 ⊢
    rcases h1 with h1 | ⟨h1, h1'⟩ <;> rcases h2 with h2 | ⟨h2, h2'⟩
    · exact Or.inl (by omega)
    · exact Or.inl (by omega)
    · exact Or.inl (by omega)
    · exact Or.inr ⟨by omega, lexCmp_trans as bs cs h1' h2'⟩

/-- Numeric priority rank of an entry under the four precedence flags
(smaller ranks sort first); a convenient reformulation of the flag chain of
`depCmp` used inside proofs. -/
def prio (e : Entry) : Nat :=
  (if e.isSystem then 0 else 8) + (if e.isAppRequired then 0 else 4) +
    (if e.isCore then 0 else 2) + (if e.isAIModel then 0 else 1)

theorem depCmp_le_iff (a b : Entry) :
    depCmp a b ≤ 0 ↔
      (prio a < prio b ∨ (prio a = prio b ∧ lexCmp a.name b.name ≤ 0)) := by
  obtain ⟨n1, v1, lv1, il1, s1, ar1, c1, ai1, d1⟩ := a
  obtain ⟨n2, v2, lv2, il2, s2, ar2, c2, ai2, d2⟩ := b
  simp only [depCmp, prio]
  cases s1 <;> cases s2 <;> cases ar1 <;> cases ar2 <;> cases c1 <;> cases c2 <;>
    cases ai1 <;> cases ai2 <;> simp


/-- Modelled from the spec's words (claim C6): the fixed precedence -
entries with `isSystem` first, then `isAppRequired`, then `isCore`, then
`isAIModel`, with alphabetical order by key deciding entries tied on all
four flags. -/
def specPrecedes (a b : Entry) : Prop :=
  if a.isSystem ≠ b.isSystem then a.isSystem = true
  else if a.isAppRequired ≠ b.isAppRequired then a.isAppRequired = true
  else if a.isCore ≠ b.isCore then a.isCore = true
  else if a.isAIModel ≠ b.isAIModel then a.isAIModel = true
  else lexCmp a.name b.name ≤ 0

theorem depLe_iff_spec (a b : Entry) : depLe a b ↔ specPrecedes a b := by
  rw [depLe, depCmp_le_iff]
  obtain ⟨n1, v1, lv1, il1, s1, ar1, c1, ai1, d1⟩ := a
  obtain ⟨n2, v2, lv2, il2, s2, ar2, c2, ai2, d2⟩ := b
  simp only [specPrecedes, prio]
  cases s1 <;> cases s2 <;> cases ar1 <;> cases ar2 <;> cases c1 <;> cases c2 <;>
    cases ai1 <;> cases ai2 <;> simp

theorem depLe_refl (a : Entry) : depLe a a :=
  (depCmp_le_iff a a).mpr (Or.inr ⟨rfl, le_of_eq (lexCmp_self a.name)⟩)

theorem depLe_total (a b : Entry) : depLe a b ∨ depLe b a := by
  by_cases h : depLe a b
  · exact Or.inl h
  · right
    rw [depLe, depCmp_le_iff] at h ⊢
    push_neg at h
    obtain ⟨h1, h2⟩ := h
    by_cases he : prio a = prio b
    · have := h2 he
      refine Or.inr ⟨he.symm, ?_⟩
      rw [lexCmp_swap]
      omega
    · exact Or.inl (by omega)

theorem depLe_trans (a b c : Entry) (h1 : depLe a b) (h2 : depLe b c) :
    depLe a c := by
  rw [depLe, depCmp_le_iff] at h1 h2 ⊢
  rcases h1 with h1 | ⟨h1, h1'⟩ <;> rcases h2 with h2 | ⟨h2, h2'⟩
  · exact Or.inl (by omega)
  · exact Or.inl (by omega)
  · exact Or.inl (by omega)
  · exact Or.inr ⟨by omega, lexCmp_trans _ _ _ h1' h2'⟩

theorem depLe_antisymm_name (a b : Entry) (h1 : depLe a b) (h2 : depLe b a) :
    a.name = b.name := by
  rw [depLe, depCmp_le_iff] at h1 h2
  have hp : prio a = prio b := by
    rcases h1 with h1 | ⟨h1, _⟩ <;> rcases h2 with h2 | ⟨h2, _⟩ <;> omega
  rcases h1 with h1 | ⟨_, h1'⟩
  · omega
  · rcases h2 with h2 | ⟨_, h2'⟩
    · omega
    · rw [lexCmp_swap] at h2'
      exact lexCmp_eq_zero _ _ (by omega)

instance : IsTotal Entry depLe := ⟨depLe_total⟩

instance : IsTrans Entry depLe := ⟨depLe_trans⟩

theorem sorted_nodupkeys_unique :
    ∀ m₁ m₂ : List Entry, m₁.Perm m₂ → List.Sorted depLe m₁ →
      List.Sorted depLe m₂ → (m₁.map Entry.name).Nodup → m₁ = m₂
  | [], m₂, hp, _, _, _ => (hp.nil_eq).symm ▸ rfl
  | a :: t₁, [], hp, _, _, _ => absurd hp.symm (by simp)
  | a :: t₁, b :: t₂, hp, hs₁, hs₂, hnd => by
    have hb : b ∈ a :: t₁ := hp.symm.subset (List.mem_cons_self b t₂)
    have ha : a ∈ b :: t₂ := hp.subset (List.mem_cons_self a t₁)
    have hab : depLe a b := by
      rcases List.mem_cons.mp hb with h | h
      · exact h ▸ depLe_refl a
      · exact List.rel_of_sorted_cons hs₁ b h
    have hba : depLe b a := by
      rcases List.mem_cons.mp ha with h | h
      · exact h ▸ depLe_refl b
      · exact List.rel_of_sorted_cons hs₂ a h
    have hkey : a.name = b.name := depLe_antisymm_name a b hab hba
    have hEq : b = a := by
      rcases List.mem_cons.mp hb with h | h
      · exact h
      · exfalso
        have : a.name ∉ t₁.map Entry.name := by
          simpa using (List.nodup_cons.mp hnd).1
        exact this (hkey ▸ List.mem_map_of_mem Entry.name h)
    subst hEq
    have htail := hp.cons_inv
    have := sorted_nodupkeys_unique t₁ t₂ htail hs₁.of_cons hs₂.of_cons
      (List.nodup_cons.mp hnd).2
    rw [this]

/-- C6: the canonical sort is a permutation of the input, is ordered by the
fixed precedence (system, then app-required, then core, then AI-model, each
tie broken by the next flag and finally alphabetically by key), and — for
entry lists with pairwise-distinct keys, which the data model guarantees —
is independent of the arrival order of the entries. -/
theorem sort_canonical_deterministic (l₁ l₂ : List Entry) (hp : l₁.Perm l₂)
    (hnd : (l₁.map Entry.name).Nodup) :
    sortDependencies l₁ = sortDependencies l₂ ∧
    (sortDependencies l₁).Perm l₁ ∧
    List.Pairwise specPrecedes (sortDependencies l₁) := by
  have p1 : (sortDependencies l₁).Perm l₁ := List.perm_insertionSort depLe l₁
  have p2 : (sortDependencies l₂).Perm l₂ := List.perm_insertionSort depLe l₂
  have s1 : List.Sorted depLe (sortDependencies l₁) := List.sorted_insertionSort depLe l₁
  have s2 : List.Sorted depLe (sortDependencies l₂) := List.sorted_insertionSort depLe l₂
  have hperm : (sortDependencies l₁).Perm (sortDependencies l₂) :=
    p1.trans (hp.trans p2.symm)
  have hnd1 : ((sortDependencies l₁).map Entry.name).Nodup :=
    ((p1.map Entry.name).nodup_iff).mpr hnd
  refine ⟨sorted_nodupkeys_unique _ _ hperm s1 s2 hnd1, p1, ?_⟩
  exact s1.imp (fun h => (depLe_iff_spec _ _).mp h)

/-- Witness for C6: two permutations of a three-entry list with distinct
keys sort to the same canonical order. -/
theorem sort_canonical_deterministic_witness :
    sortDependencies [numpyEntry,
        { numpyEntry with name := "abc".data },
        { numpyEntry with name := "zlib".data, isSystem := true }] =
      sortDependencies [{ numpyEntry with name := "zlib".data, isSystem := true },
        { numpyEntry with name := "abc".data }, numpyEntry] ∧
    (sortDependencies [numpyEntry,
        { numpyEntry with name := "abc".data },
        { numpyEntry with name := "zlib".data, isSystem := true }]).Perm
      [numpyEntry, { numpyEntry with name := "abc".data },
        { numpyEntry with name := "zlib".data, isSystem := true }] := by
  obtain ⟨h1, h2, _⟩ := sort_canonical_deterministic
    [numpyEntry, { numpyEntry with name := "abc".data },
      { numpyEntry with name := "zlib".data, isSystem := true }]
    [{ numpyEntry with name := "zlib".data, isSystem := true },
      { numpyEntry with name := "abc".data }, numpyEntry]
    (by decide) (by decide)
  exact ⟨h1, h2⟩

theorem filterSel_mem (ft : FilterType) (entries : List Entry) :
    ∀ (sel : List Name) (n : Name),
      n ∈ entries.foldl
          (fun sel e =>
            if shouldShowEntry ft e then sel
            else if e.name ∈ sel then selDelete sel e.name else sel) sel ↔
        n ∈ sel ∧ ∀ e ∈ entries, shouldShowEntry ft e = true ∨ e.name ≠ n := by
  induction entries with
  | nil => intro sel n; simp
  | cons e es ih =>
    intro sel n
    simp only [List.foldl_cons, List.mem_cons]
    by_cases hs : shouldShowEntry ft e
    · rw [if_pos hs, ih]
      constructor
      · rintro ⟨h1, h2⟩
        exact ⟨h1, fun x hx => by
          rcases hx with hx | hx
          · exact Or.inl (hx ▸ hs)
          · exact h2 x hx⟩
      · rintro ⟨h1, h2⟩
        exact ⟨h1, fun x hx => h2 x (Or.inr hx)⟩
    · rw [if_neg hs]
      by_cases hm : e.name ∈ sel
      · rw [if_pos hm, ih]
        constructor
        · rintro ⟨h1, h2⟩
          have hne : n ≠ e.name := by
            intro he
            subst he
            simp [selDelete] at h1
          refine ⟨by simpa [selDelete, hne] using h1, fun x hx => ?_⟩
          rcases hx with hx | hx
          · exact Or.inr (by subst hx; exact fun hh => hne hh.symm)
          · exact h2 x hx
        · rintro ⟨h1, h2⟩
          have hne : e.name ≠ n := by
            rcases h2 e (Or.inl rfl) with h | h
            · exact absurd h (by simpa using hs)
            · exact h
          refine ⟨?_, fun x hx => h2 x (Or.inr hx)⟩
          simp only [selDelete, List.mem_filter, decide_eq_true_eq]
          exact ⟨h1, fun hc => hne hc.symm⟩
      · rw [if_neg hm, ih]
        constructor
        · rintro ⟨h1, h2⟩
          refine ⟨h1, fun x hx => ?_⟩
          rcases hx with hx | hx
          · subst hx
            exact Or.inr (fun he => hm (he ▸ h1))
          · exact h2 x hx
        · rintro ⟨h1, h2⟩
          exact ⟨h1, fun x hx => h2 x (Or.inr hx)⟩

/-- C8: applying a filter recomputes each entry's visibility purely from its
flags (the hidden set is exactly the entries failing the flag predicate);
every listed entry that is hidden under the new filter has its key absent
from the selection set afterwards; and the `all` filter hides nothing and
leaves the selection untouched. -/
theorem filter_hides_and_deselects (ft : FilterType) (st : ListState) :
    ((filterDependencies ft st).hiddenNames =
      (st.allDependencies.filter (fun e => !shouldShowEntry ft e)).map Entry.name) ∧
    (∀ e ∈ st.allDependencies, shouldShowEntry ft e = false →
      e.name ∉ (filterDependencies ft st).selectedDependencies) ∧
    (filterDependencies FilterType.all st).hiddenNames = [] ∧
    (filterDependencies FilterType.all st).selectedDependencies =
      st.selectedDependencies := by
  refine ⟨rfl, ?_, ?_, ?_⟩
  · intro e he hhide hmem
    rw [filterDependencies] at hmem
    obtain ⟨_, hall⟩ := (filterSel_mem ft st.allDependencies _ _).mp hmem
    rcases hall e he with h | h
    · rw [h] at hhide; cases hhide
    · exact h rfl
  · simp [filterDependencies, shouldShowEntry]
  · rw [filterDependencies]
    have : ∀ l : List Entry, ∀ sel : List Name,
        l.foldl (fun sel e =>
          if shouldShowEntry FilterType.all e then sel
          else if e.name ∈ sel then selDelete sel e.name else sel) sel = sel := by
      intro l
      induction l with
      | nil => intro sel; rfl
      | cons e es ih => intro sel; simp [shouldShowEntry, ih]
    exact this _ _

/-- Witness for C8: a selected non-system entry is deselected by the
`system` filter. -/
theorem filter_hides_and_deselects_witness :
    "numpy".data ∉
      (filterDependencies FilterType.sys
        { allDependencies := [numpyEntry],
          selectedDependencies := ["numpy".data] }).selectedDependencies := by
  exact (filter_hides_and_deselects FilterType.sys
      { allDependencies := [numpyEntry], selectedDependencies := ["numpy".data] }).2.1
    numpyEntry (by decide) (by decide)

instance (query : Name) : IsTotal Entry (scoreGe query) :=
  ⟨fun _ _ => le_total _ _⟩

instance (query : Name) : IsTrans Entry (scoreGe query) :=
  ⟨fun _ _ _ h1 h2 => le_trans h2 h1⟩

theorem filter_orderedInsert {α : Type} (r : α → α → Prop) [DecidableRel r]
    (p : α → Bool) (x : α) (hx : ∀ y, p x = true → ¬r x y → p y = false) :
    ∀ l : List α, ((l.orderedInsert r x).filter p) =
      if p x then x :: l.filter p else l.filter p
  | [] => by simp [List.orderedInsert, List.filter_cons]
  | y :: l => by
    simp only [List.orderedInsert]
    by_cases hr : r x y
    · rw [if_pos hr]
      simp [List.filter_cons]
    · rw [if_neg hr]
      by_cases hpx : p x
      · have hpy : p y = false := hx y hpx hr
        simp [List.filter_cons, hpy, hpx, filter_orderedInsert r p x hx l]
      · simp only [Bool.not_eq_true] at hpx
        simp [List.filter_cons, hpx, filter_orderedInsert r p x hx l]

theorem filter_insertionSort {α : Type} (r : α → α → Prop) [DecidableRel r]
    (p : α → Bool) (hp : ∀ x y, p x = true → ¬r x y → p y = false) :
    ∀ l : List α, ((l.insertionSort r).filter p) = l.filter p
  | [] => rfl
  | x :: l => by
    simp only [List.insertionSort]
    rw [filter_orderedInsert r p x (fun y hx hr => hp x y hx hr),
      filter_insertionSort r p hp l, List.filter_cons]

theorem leadsList_length : ∀ q s : Name, leadsList q s = true → q.length ≤ s.length
  | [], _, _ => by simp
  | _ :: _, [], h => by simp [leadsList] at h
  | a :: as, b :: bs, h => by
    simp only [leadsList, Bool.and_eq_true] at h
    simpa using Nat.succ_le_succ (leadsList_length as bs h.2)

theorem subIdx_add_le : ∀ q s : Name, hasSub q s = true →
    subIdx q s + q.length ≤ s.length
  | q, [], h => by
    simp only [hasSub] at h
    simpa [subIdx] using leadsList_length q [] h
  | q, c :: rest, h => by
    simp only [hasSub, Bool.or_eq_true] at h
    by_cases hl : leadsList q (c :: rest)
    · simpa [subIdx, hl] using leadsList_length q (c :: rest) hl
    · have hr : hasSub q rest = true := h.resolve_left (by simp [hl])
      have := subIdx_add_le q rest hr
      simp only [subIdx, List.length_cons]
      rw [if_neg hl]
      omega

theorem toLowerName_length (s : Name) : (toLowerName s).length = s.length :=
  List.length_map s charToLower

theorem score_pos_of_match (query : Name) (e : Entry) (hq : query ≠ [])
    (hlen : e.name.length < 500)
    (hm : hasSub (toLowerName query) (toLowerName e.name) = true) :
    0 < scoreOf query e := by
  have hlq : 1 ≤ (toLowerName query).length := by
    rw [toLowerName_length]
    cases query with
    | nil => exact absurd rfl hq
    | cons a as => simp
  have hpn : (toLowerName e.name).length < 500 := by
    rw [toLowerName_length]; exact hlen
  rw [scoreOf]
  by_cases h0 : toLowerName e.name = []
  · rw [h0] at hm
    simp only [hasSub] at hm
    have := leadsList_length _ _ hm
    simp only [List.length_nil] at this
    omega
  · rw [if_neg h0]
    by_cases h1 : leadsList (toLowerName query) (toLowerName e.name)
    · rw [if_pos h1]
      by_cases h2 : ((toLowerName e.name).length : Int) -
          ((toLowerName query).length : Int) < 3
      · rw [if_pos h2]; omega
      · rw [if_neg h2]; omega
    · rw [if_neg h1, if_pos hm]
      have hidx := subIdx_add_le _ _ hm
      omega

/-- C7 amended: the search result is a permutation of the rendered items,
sorted by non-increasing score, with input order preserved inside every
score class (the stable-sort contract); and provided every key is shorter
than 500 characters (so every match scores positive), no entry whose key
contains the query ever appears after a score-0 entry.  Without the length
bound the last part fails, see the counterexample. -/
theorem search_ranking_props (query : Name) (items : List Entry)
    (hq : query ≠ []) :
    (searchRank query items).Perm items ∧
    List.Pairwise (scoreGe query) (searchRank query items) ∧
    (∀ s : Int,
      (searchRank query items).filter (fun e => decide (scoreOf query e = s)) =
        items.filter (fun e => decide (scoreOf query e = s))) ∧
    ((∀ e ∈ items, e.name.length < 500) →
      List.Pairwise
        (fun a b => scoreOf query a = 0 →
          hasSub (toLowerName query) (toLowerName b.name) = false)
        (searchRank query items)) := by
  have hperm : (searchRank query items).Perm items :=
    List.perm_insertionSort (scoreGe query) items
  have hsorted : List.Sorted (scoreGe query) (searchRank query items) :=
    List.sorted_insertionSort (scoreGe query) items
  refine ⟨hperm, hsorted, ?_, ?_⟩
  · intro s
    refine filter_insertionSort (scoreGe query) _ ?_ items
    intro x y hx hr
    simp only [decide_eq_true_eq] at hx
    simp only [decide_eq_false_iff_not]
    rw [scoreGe, not_le] at hr
    omega
  · intro hlen
    refine hsorted.imp_of_mem ?_
    intro a b ha hb hge h0
    by_contra hmatch
    rw [Bool.not_eq_false] at hmatch
    have hbmem : b ∈ items := hperm.subset hb
    have := score_pos_of_match query b hq (hlen b hbmem) hmatch
    rw [scoreGe] at hge
    omega

def longMatchEntry : Entry := { numpyEntry with name := List.replicate 500 'a' ++ ['q'] }

def zEntry : Entry := { numpyEntry with name := ['z'] }

set_option maxRecDepth 8000 in
/-- C7 counterexample: with query `"q"`, a 501-character key containing the
query only at its last position scores `1000 - 500 - 501 = -1`, so the
descending sort places the non-matching score-0 entry `"z"` before it: a
score-0 entry is not positioned after all matching entries. -/
theorem search_zero_before_match_cx :
    searchRank ['q'] [longMatchEntry, zEntry] = [zEntry, longMatchEntry] ∧
    hasSub (toLowerName ['q']) (toLowerName longMatchEntry.name) = true ∧
    hasSub (toLowerName ['q']) (toLowerName zEntry.name) = false ∧
    scoreOf ['q'] longMatchEntry = -1 ∧
    scoreOf ['q'] zEntry = 0 := by decide

/-- Witness for C7 at the spec's own ranking example (short keys, query
`"num"`). -/
theorem search_ranking_props_witness :
    (searchRank "num".data
        [{ numpyEntry with name := "pandas".data },
         { numpyEntry with name := "numexpr".data }, numpyEntry,
         { numpyEntry with name := "numba".data }]).Perm
      [{ numpyEntry with name := "pandas".data },
       { numpyEntry with name := "numexpr".data }, numpyEntry,
       { numpyEntry with name := "numba".data }] ∧
    List.Pairwise (scoreGe "num".data)
      (searchRank "num".data
        [{ numpyEntry with name := "pandas".data },
         { numpyEntry with name := "numexpr".data }, numpyEntry,
         { numpyEntry with name := "numba".data }]) := by
  obtain ⟨h1, h2, _, _⟩ := search_ranking_props "num".data
    [{ numpyEntry with name := "pandas".data },
     { numpyEntry with name := "numexpr".data }, numpyEntry,
     { numpyEntry with name := "numba".data }] (by decide)
  exact ⟨h1, h2⟩

/-- C9 counterexample: for the update mutation, when the targeted re-fetch
fails (empty body — and `refreshSingleDependency` also maps its own errors
to this case), the completion handler performs no store action at all: no
full-list reload fallback happens, contrary to the claim. -/
theorem update_refetch_no_fallback_cx :
    updateOnComplete FetchSingleOutcome.fetchedNone = [] ∧
    SyncAction.fullReload false ∉ updateOnComplete FetchSingleOutcome.fetchedNone ∧
    SyncAction.fullReload true ∉ updateOnComplete FetchSingleOutcome.fetchedNone := by
  decide

/-- C9 amended: only the version-switch handler implements the claimed
targeted-refetch-with-fallback protocol (upsert of the freshly fetched entry
on success, full reload when the re-fetch yields no entry or throws).  The
update handler performs the targeted re-fetch-and-upsert but does nothing
when it fails.  The install handler's completion callback performs an
unconditional full reload (its targeted re-fetch runs at submission time,
not on completion). -/
theorem sync_actions_after_mutation :
    (∀ e : Entry,
      versionSwitchOnComplete (FetchSingleOutcome.fetchedEntry e) =
        [SyncAction.upsertEntry e]) ∧
    versionSwitchOnComplete FetchSingleOutcome.fetchedNone =
      [SyncAction.fullReload false] ∧
    versionSwitchOnComplete FetchSingleOutcome.fetchThrew =
      [SyncAction.fullReload false] ∧
    (∀ e : Entry,
      updateOnComplete (FetchSingleOutcome.fetchedEntry e) =
        [SyncAction.upsertEntry e]) ∧
    updateOnComplete FetchSingleOutcome.fetchedNone = [] ∧
    updateOnComplete FetchSingleOutcome.fetchThrew = [] ∧
    installOnComplete = [SyncAction.fullReload false] :=
  ⟨fun _ => rfl, rfl, rfl, fun _ => rfl, rfl, rfl, rfl⟩

end ModuWeb
